import Mathlib

/-!
Verification of the Random-Phone-Number-Generator program.

The program (`Random-Phone-Number-Generator.py`) is embedded shallowly:

* Python strings are `List Char`; the relevant ASCII fragments of
  `str.strip`, `str.lstrip('+')` and `str.isdigit` are modelled directly.
* The system random source `rng.choice('0123456789')` is modelled as an
  explicit stream `rng : Nat → Fin 10`; the k-th draw of the program is
  `rng k`.  The `while` loop of `generate_phone_numbers` is modelled with
  explicit fuel: `none` means the loop was still running after `fuel`
  iterations, `some rs` means it returned `rs`.
* Python `int` is `Int`; exceptions become an explicit error type.
-/

/-- ASCII decimal digit test: models Python `str.isdigit` on a single
character (the program only ever deals with ASCII input). -/
def isDigitChar (c : Char) : Bool :=
  decide (48 ≤ c.toNat) && decide (c.toNat ≤ 57)

/-- ASCII whitespace, as stripped by Python `str.strip()` (space, tab,
newline, carriage return, vertical tab, form feed). -/
def pySpace (c : Char) : Bool :=
  decide (c.toNat = 32) || decide (c.toNat = 9) || decide (c.toNat = 10) ||
  decide (c.toNat = 13) || decide (c.toNat = 11) || decide (c.toNat = 12)

/-- Python `s.strip()`: remove leading and trailing whitespace. -/
def pyStrip (l : List Char) : List Char :=
  ((l.dropWhile pySpace).reverse.dropWhile pySpace).reverse

/-- Python `s.lstrip('+')`: remove every leading `+` character. -/
def pyLstripPlus (l : List Char) : List Char :=
  l.dropWhile (fun c => c == '+')

/-- Python `s.isdigit()`: non-empty and all characters are digits. -/
def pyIsdigit (l : List Char) : Bool :=
  !l.isEmpty && l.all isDigitChar

/-- `country_digits = country_code.strip().lstrip('+')` (source line 48). -/
def country_digits_of (country_code : List Char) : List Char :=
  pyLstripPlus (pyStrip country_code)

/-- `local_digits = local_code.strip()` (source line 49). -/
def local_digits_of (local_code : List Char) : List Char :=
  pyStrip local_code

/-- `remaining_length = total_length - len(country_digits) - len(local_digits)`
(source line 56). -/
def remaining_of (total_length : Int) (country_code local_code : List Char) : Int :=
  total_length - (country_digits_of country_code).length
    - (local_digits_of local_code).length

/-- `max_possible = 10 ** remaining_length` (source line 63). -/
def max_possible_of (total_length : Int) (country_code local_code : List Char) : Int :=
  10 ^ (remaining_of total_length country_code local_code).toNat

/-- The `ValueError`s raised by `generate_phone_numbers`, one constructor per
`raise` site.  The first four are configuration errors; the last is the
capacity error of the uniqueness feasibility check. -/
inductive GenError where
  | invalidTotalLength : GenError
  | invalidCountryCode : GenError
  | invalidLocalCode : GenError
  | invalidRemainingLength : Int → GenError
  | capacityExceeded : Int → Int → GenError
deriving DecidableEq, Repr

/-- The spec's `InvalidConfiguration` error kind: every error except the
`CapacityExceeded` one. -/
def GenError.isInvalidConfiguration : GenError → Bool
  | .capacityExceeded _ _ => false
  | _ => true

/-- The character drawn for digit `d`: `rng.choice('0123456789')`. -/
def digitChar (d : Fin 10) : Char :=
  Char.ofNat (48 + d.val)

/-- The random body drawn at stream position `pos`:
`''.join(rng.choice('0123456789') for _ in range(remaining_length))`
(source line 74), consuming `r` digits of the stream. -/
def bodyAt (rng : Nat → Fin 10) (pos r : Nat) : List Char :=
  (List.range r).map (fun i => digitChar (rng (pos + i)))

/-- Formatting of one result (source lines 81-84): prepend `'+'` when
`include_plus` is set. -/
def fmtNumber (include_plus : Bool) (full : List Char) : List Char :=
  if include_plus then '+' :: full else full

/-- The `while len(results) < limit` loop of `generate_phone_numbers`
(source lines 73-86), with explicit fuel counting loop iterations.
`none` means the fuel ran out with the loop still going; `some rs` means
the loop finished with result list `rs`. -/
def genLoop (rng : Nat → Fin 10) (cd ld : List Char) (r : Nat) (limit : Int)
    (include_plus unique : Bool) :
    Nat → Nat → List (List Char) → List (List Char) → Option (List (List Char))
  | 0, _pos, _seen, results =>
      if (results.length : Int) < limit then none else some results
  | fuel+1, pos, seen, results =>
      if (results.length : Int) < limit then
        if unique = true then
          if cd ++ (ld ++ bodyAt rng pos r) ∈ seen then
            genLoop rng cd ld r limit include_plus unique fuel (pos + r) seen results
          else
            genLoop rng cd ld r limit include_plus unique fuel (pos + r)
              ((cd ++ (ld ++ bodyAt rng pos r)) :: seen)
              (results ++ [fmtNumber include_plus (cd ++ (ld ++ bodyAt rng pos r))])
        else
          genLoop rng cd ld r limit include_plus unique fuel (pos + r) seen
            (results ++ [fmtNumber include_plus (cd ++ (ld ++ bodyAt rng pos r))])
      else some results

/-- `generate_phone_numbers` (source lines 30-86).  Validation is exactly the
source's chain of checks; on success the result is the loop's outcome under
the given fuel. -/
def generate_phone_numbers (rng : Nat → Fin 10) (fuel : Nat)
    (total_length : Int) (country_code local_code : List Char)
    (limit : Int) (include_plus unique : Bool) :
    Except GenError (Option (List (List Char))) :=
  if total_length ≤ 0 then .error .invalidTotalLength
  else if pyIsdigit (country_digits_of country_code) = false then
    .error .invalidCountryCode
  else if local_digits_of local_code ≠ [] ∧
      pyIsdigit (local_digits_of local_code) = false then
    .error .invalidLocalCode
  else if remaining_of total_length country_code local_code ≤ 0 then
    .error (.invalidRemainingLength (remaining_of total_length country_code local_code))
  else if unique = true ∧
      max_possible_of total_length country_code local_code < limit then
    .error (.capacityExceeded limit (max_possible_of total_length country_code local_code))
  else
    .ok (genLoop rng (country_digits_of country_code) (local_digits_of local_code)
      (remaining_of total_length country_code local_code).toNat limit
      include_plus unique fuel 0 [] [])

/-- Strip the leading separator of a formatted number, if present. -/
def dropSep (x : List Char) : List Char :=
  if x.head? = some '+' then x.drop 1 else x

/-- Every produced result is the formatting of `cd ++ ld ++ body` for a random
body of `r` digit characters. -/
def goodElem (cd ld : List Char) (r : Nat) (plus : Bool) (x : List Char) : Prop :=
  ∃ body : List Char, body.length = r ∧ (∀ c ∈ body, isDigitChar c = true) ∧
    x = fmtNumber plus (cd ++ (ld ++ body))

/-! ### Concrete random sources and the termination model -/

/-- The constant random source: every draw is the digit `0`. -/
def rngZero : Nat → Fin 10 := fun _ => 0

/-- A deterministic cycling source: the `n`-th draw is the digit `n mod 10`. -/
def rngMod (n : Nat) : Fin 10 := ⟨n % 10, Nat.mod_lt _ (by omega)⟩

/-- The retry loop of `generate_phone_numbers` with `unique = True` terminates
for the given random source: some finite number of iterations completes the
batch. -/
def loopTerminates (rng : Nat → Fin 10) (total_length : Int)
    (country_code local_code : List Char) (limit : Int) (include_plus : Bool) : Prop :=
  ∃ (fuel : Nat) (rs : List (List Char)),
    generate_phone_numbers rng fuel total_length country_code local_code
      limit include_plus true = .ok (some rs)

/-- Insert an element unless already present (first occurrence kept). -/
def insertNew (l : List (List Char)) (x : List Char) : List (List Char) :=
  if x ∈ l then l else x :: l

/-- The full digit string built at loop iteration `k` (iteration `k` consumes
stream positions `k*r, ..., k*r + r - 1`). -/
def fullAt (rng : Nat → Fin 10) (cd ld : List Char) (r k : Nat) : List Char :=
  cd ++ (ld ++ bodyAt rng (k * r) r)

/-- The distinct full digit strings drawn during the first `n` iterations. -/
def seenUpTo (rng : Nat → Fin 10) (cd ld : List Char) (r : Nat) : Nat → List (List Char)
  | 0 => []
  | n+1 => insertNew (seenUpTo rng cd ld r n) (fullAt rng cd ld r n)

/-! ### The Writer (`save_to_csv`, source lines 89-96)

`save_to_csv` writes, with Python's `csv.writer` default dialect, a header
record `Phone Number` followed by one record per number.  The dialect
terminates records with CRLF and quotes a field only when it contains the
delimiter, the quote character or a CR/LF, doubling embedded quotes.  We model
the byte content of the written file. -/

/-- Characters that force quoting under the default `csv.writer` dialect. -/
def csvSpecial (c : Char) : Bool :=
  (c == ',') || (c == '"') || (c == '\r') || (c == '\n')

/-- Double every quote character of a field body. -/
def escapeQuotes : List Char → List Char
  | [] => []
  | c :: cs => if c = '"' then '"' :: '"' :: escapeQuotes cs else c :: escapeQuotes cs

/-- One encoded CSV field (minimal quoting, as `csv.writer` does). -/
def encodeField (f : List Char) : List Char :=
  if f.any csvSpecial then '"' :: (escapeQuotes f ++ ['"']) else f

/-- The record terminator of the default `csv.writer` dialect. -/
def CRLF : List Char := ['\r', '\n']

/-- The data records written by `writer.writerows([[p] for p in phone_numbers])`. -/
def csvLines : List (List Char) → List Char
  | [] => []
  | p :: ps => encodeField p ++ (CRLF ++ csvLines ps)

/-- File content produced by `save_to_csv` (source lines 89-96): the header
record `Phone Number` followed by one single-field record per number. -/
def save_to_csv (phone_numbers : List (List Char)) : List Char :=
  encodeField ("Phone Number".toList) ++ (CRLF ++ csvLines phone_numbers)

/-- Split a character stream at every CRLF record terminator. -/
def splitCRLF : List Char → List (List Char)
  | [] => [[]]
  | [c] => [[c]]
  | c1 :: c2 :: rest =>
      if c1 = '\r' ∧ c2 = '\n' then [] :: splitCRLF rest
      else
        match splitCRLF (c2 :: rest) with
        | [] => [[c1]]
        | l :: ls => (c1 :: l) :: ls

/-- Undo quote doubling inside a quoted field body. -/
def unescapeQuotes : List Char → List Char
  | [] => []
  | '"' :: '"' :: cs => '"' :: unescapeQuotes cs
  | c :: cs => c :: unescapeQuotes cs

/-- Modelled from the spec: decoding of one field of the standard delimited
encoding (the repository has no reader; section 4.3 specifies
comma-separated records with double-quote escaping). -/
def decodeField (f : List Char) : List Char :=
  if f.head? = some '"' then unescapeQuotes ((f.drop 1).dropLast) else f

/-- Modelled from the spec: the records of a written file, reading CRLF as
the record terminator (a trailing terminator ends the last record rather
than opening an empty one). -/
def csvRecords (content : List Char) : List (List Char) :=
  if (splitCRLF content).getLast? = some [] then (splitCRLF content).dropLast
  else splitCRLF content

/-- Modelled from the spec: re-reading a written file, header record
excluded (section 8, round-trip property). -/
def read_csv (content : List Char) : List (List Char) :=
  ((csvRecords content).map decodeField).drop 1

/-! ### Basic character facts -/

lemma isDigitChar_digitChar (d : Fin 10) : isDigitChar (digitChar d) = true := by
  revert d; decide

lemma ne_plus_of_isDigitChar {c : Char} (h : isDigitChar c = true) : c ≠ '+' := by
  intro he
  subst he
  simp [isDigitChar] at h

lemma pyIsdigit_cons {l : List Char} (h : pyIsdigit l = true) :
    ∃ c l', l = c :: l' ∧ isDigitChar c = true ∧ ∀ x ∈ l, isDigitChar x = true := by
  cases l with
  | nil => simp [pyIsdigit] at h
  | cons c l' =>
    simp only [pyIsdigit, Bool.and_eq_true, List.all_eq_true] at h
    exact ⟨c, l', rfl, h.2 c (by simp), h.2⟩

/-! ### Inversion of a successful run -/

lemma generate_ok_inv {rng : Nat → Fin 10} {fuel : Nat} {t : Int}
    {cc lc : List Char} {lim : Int} {plus uniq : Bool}
    {res : Option (List (List Char))}
    (h : generate_phone_numbers rng fuel t cc lc lim plus uniq = .ok res) :
    0 < t ∧ pyIsdigit (country_digits_of cc) = true ∧
    (local_digits_of lc = [] ∨ pyIsdigit (local_digits_of lc) = true) ∧
    0 < remaining_of t cc lc ∧
    (uniq = true → lim ≤ max_possible_of t cc lc) ∧
    res = genLoop rng (country_digits_of cc) (local_digits_of lc)
        (remaining_of t cc lc).toNat lim plus uniq fuel 0 [] [] := by
  unfold generate_phone_numbers at h
  by_cases h1 : t ≤ 0
  · rw [if_pos h1] at h; exact Except.noConfusion h
  rw [if_neg h1] at h
  by_cases h2 : pyIsdigit (country_digits_of cc) = false
  · rw [if_pos h2] at h; exact Except.noConfusion h
  rw [if_neg h2] at h
  by_cases h3 : local_digits_of lc ≠ [] ∧ pyIsdigit (local_digits_of lc) = false
  · rw [if_pos h3] at h; exact Except.noConfusion h
  rw [if_neg h3] at h
  by_cases h4 : remaining_of t cc lc ≤ 0
  · rw [if_pos h4] at h; exact Except.noConfusion h
  rw [if_neg h4] at h
  by_cases h5 : uniq = true ∧ max_possible_of t cc lc < lim
  · rw [if_pos h5] at h; exact Except.noConfusion h
  rw [if_neg h5] at h
  refine ⟨by omega, by simpa using h2, ?_, by omega, ?_, ?_⟩
  · by_cases he : local_digits_of lc = []
    · exact Or.inl he
    · refine Or.inr ?_
      by_contra hd
      exact h3 ⟨he, by simpa using hd⟩
  · intro hu
    by_contra hlt
    exact h5 ⟨hu, by omega⟩
  · injection h with h
    exact h.symm

/-! ### Loop invariant: result length -/

lemma genLoop_length (rng : Nat → Fin 10) (cd ld : List Char) (r : Nat)
    (lim : Int) (plus uniq : Bool) :
    ∀ (fuel pos : Nat) (seen results rs : List (List Char)),
      (results.length : Int) ≤ lim →
      genLoop rng cd ld r lim plus uniq fuel pos seen results = some rs →
      (rs.length : Int) = lim := by
  intro fuel
  induction fuel with
  | zero =>
    intro pos seen results rs hle h
    simp only [genLoop] at h
    by_cases hlt : (results.length : Int) < lim
    · rw [if_pos hlt] at h; exact Option.noConfusion h
    · rw [if_neg hlt] at h
      injection h with h
      subst h
      omega
  | succ fuel ih =>
    intro pos seen results rs hle h
    simp only [genLoop] at h
    by_cases hlt : (results.length : Int) < lim
    · rw [if_pos hlt] at h
      by_cases hu : uniq = true
      · rw [if_pos hu] at h
        by_cases hmem : cd ++ (ld ++ bodyAt rng pos r) ∈ seen
        · rw [if_pos hmem] at h
          exact ih _ _ _ _ (by omega) h
        · rw [if_neg hmem] at h
          refine ih _ _ _ _ ?_ h
          simp only [List.length_append, List.length_cons, List.length_nil]
          push_cast
          omega
      · rw [if_neg hu] at h
        refine ih _ _ _ _ ?_ h
        simp only [List.length_append, List.length_cons, List.length_nil]
        push_cast
        omega
    · rw [if_neg hlt] at h
      injection h with h
      subst h
      omega

/-! ### Loop invariant: element shape -/

lemma bodyAt_length (rng : Nat → Fin 10) (pos r : Nat) : (bodyAt rng pos r).length = r := by
  simp [bodyAt]

lemma bodyAt_digits (rng : Nat → Fin 10) (pos r : Nat) :
    ∀ c ∈ bodyAt rng pos r, isDigitChar c = true := by
  intro c hc
  simp only [bodyAt, List.mem_map] at hc
  obtain ⟨i, _, rfl⟩ := hc
  exact isDigitChar_digitChar _

lemma goodElem_bodyAt (cd ld : List Char) (rng : Nat → Fin 10) (pos r : Nat) (plus : Bool) :
    goodElem cd ld r plus (fmtNumber plus (cd ++ (ld ++ bodyAt rng pos r))) :=
  ⟨bodyAt rng pos r, bodyAt_length rng pos r, bodyAt_digits rng pos r, rfl⟩

lemma genLoop_elems (rng : Nat → Fin 10) (cd ld : List Char) (r : Nat)
    (lim : Int) (plus uniq : Bool) :
    ∀ (fuel pos : Nat) (seen results rs : List (List Char)),
      (∀ x ∈ results, goodElem cd ld r plus x) →
      genLoop rng cd ld r lim plus uniq fuel pos seen results = some rs →
      ∀ x ∈ rs, goodElem cd ld r plus x := by
  intro fuel
  induction fuel with
  | zero =>
    intro pos seen results rs hres h
    simp only [genLoop] at h
    by_cases hlt : (results.length : Int) < lim
    · rw [if_pos hlt] at h; exact Option.noConfusion h
    · rw [if_neg hlt] at h
      injection h with h
      subst h
      exact hres
  | succ fuel ih =>
    intro pos seen results rs hres h
    simp only [genLoop] at h
    by_cases hlt : (results.length : Int) < lim
    · rw [if_pos hlt] at h
      by_cases hu : uniq = true
      · rw [if_pos hu] at h
        by_cases hmem : cd ++ (ld ++ bodyAt rng pos r) ∈ seen
        · rw [if_pos hmem] at h
          exact ih _ _ _ _ hres h
        · rw [if_neg hmem] at h
          refine ih _ _ _ _ ?_ h
          intro x hx
          rcases List.mem_append.1 hx with hx | hx
          · exact hres x hx
          · rw [List.mem_singleton.1 hx]
            exact goodElem_bodyAt cd ld rng pos r plus
      · rw [if_neg hu] at h
        refine ih _ _ _ _ ?_ h
        intro x hx
        rcases List.mem_append.1 hx with hx | hx
        · exact hres x hx
        · rw [List.mem_singleton.1 hx]
          exact goodElem_bodyAt cd ld rng pos r plus
    · rw [if_neg hlt] at h
      injection h with h
      subst h
      exact hres

/-! ### Loop invariant: uniqueness -/

lemma genLoop_unique (rng : Nat → Fin 10) (cd ld : List Char) (r : Nat)
    (lim : Int) (plus : Bool) :
    ∀ (fuel pos : Nat) (seen results rs : List (List Char)),
      seen.Nodup → (∀ x ∈ seen, ∃ u, x = cd ++ u) →
      results = seen.reverse.map (fmtNumber plus) →
      genLoop rng cd ld r lim plus true fuel pos seen results = some rs →
      ∃ s : List (List Char), s.Nodup ∧ (∀ x ∈ s, ∃ u, x = cd ++ u) ∧
        rs = s.reverse.map (fmtNumber plus) := by
  intro fuel
  induction fuel with
  | zero =>
    intro pos seen results rs hnd hsh hrev h
    simp only [genLoop] at h
    by_cases hlt : (results.length : Int) < lim
    · rw [if_pos hlt] at h; exact Option.noConfusion h
    · rw [if_neg hlt] at h
      injection h with h
      subst h
      exact ⟨seen, hnd, hsh, hrev⟩
  | succ fuel ih =>
    intro pos seen results rs hnd hsh hrev h
    simp only [genLoop] at h
    by_cases hlt : (results.length : Int) < lim
    · rw [if_pos hlt] at h
      rw [if_pos trivial] at h
      by_cases hmem : cd ++ (ld ++ bodyAt rng pos r) ∈ seen
      · rw [if_pos hmem] at h
        exact ih _ _ _ _ hnd hsh hrev h
      · rw [if_neg hmem] at h
        refine ih _ _ _ _ ?_ ?_ ?_ h
        · exact List.nodup_cons.2 ⟨hmem, hnd⟩
        · intro x hx
          rcases List.mem_cons.1 hx with hx | hx
          · exact ⟨ld ++ bodyAt rng pos r, hx⟩
          · exact hsh x hx
        · rw [hrev]
          simp
    · rw [if_neg hlt] at h
      injection h with h
      subst h
      exact ⟨seen, hnd, hsh, hrev⟩

lemma dropSep_fmtNumber {c : Char} (hc : c ≠ '+') (plus : Bool) (l : List Char) :
    dropSep (fmtNumber plus (c :: l)) = c :: l := by
  cases plus <;> simp [dropSep, fmtNumber, hc]

/-! ### Claim theorems -/

/-- C1: For every valid configuration (in the data model `count` is a
non-negative integer; positivity of the total length, digit-only codes,
positive remaining length and feasibility are all enforced by the function
itself on any successful return), `generate_phone_numbers` returns a list of
exactly `limit` strings: whenever a run completes, its result list has length
exactly `limit`. -/
theorem generate_returns_count (rng : Nat → Fin 10) (fuel : Nat) (t : Int)
    (cc lc : List Char) (lim : Int) (plus uniq : Bool) (rs : List (List Char))
    (h0 : 0 ≤ lim)
    (h : generate_phone_numbers rng fuel t cc lc lim plus uniq = .ok (some rs)) :
    (rs.length : Int) = lim := by
  obtain ⟨-, -, -, -, -, hres⟩ := generate_ok_inv h
  exact genLoop_length rng _ _ _ lim plus uniq fuel 0 [] [] rs (by simpa using h0) hres.symm

/-- Witness for C1: a complete concrete run with `count = 3` returns three
strings. -/
theorem generate_returns_count_witness :
    (([['+','1','0','0'], ['+','1','0','0'], ['+','1','0','0']] : List (List Char)).length : Int)
      = 3 :=
  generate_returns_count rngZero 3 3 ("1".toList) [] 3 true false _ (by decide) (by rfl)

/-- C2: when `unique` is true, the returned list is pairwise distinct
(`List.Nodup` is exactly pairwise inequality of entries at distinct indices),
and already the unformatted digit strings (the results stripped of the
optional leading separator) are pairwise distinct. -/
theorem generate_unique_results_nodup (rng : Nat → Fin 10) (fuel : Nat) (t : Int)
    (cc lc : List Char) (lim : Int) (plus : Bool) (rs : List (List Char))
    (h : generate_phone_numbers rng fuel t cc lc lim plus true = .ok (some rs)) :
    (rs.map dropSep).Nodup ∧ rs.Nodup := by
  obtain ⟨-, hcc, -, -, -, hres⟩ := generate_ok_inv h
  obtain ⟨s, hnd, hsh, hrs⟩ :=
    genLoop_unique rng _ _ _ lim plus fuel 0 [] [] rs List.nodup_nil
      (by intro x hx; exact absurd hx (List.not_mem_nil x)) (by simp) hres.symm
  obtain ⟨c, cd', hcd, hdigc, -⟩ := pyIsdigit_cons hcc
  have hmap : rs.map dropSep = s.reverse := by
    rw [hrs, List.map_map]
    have hid : ∀ x ∈ s.reverse, (dropSep ∘ fmtNumber plus) x = id x := by
      intro x hx
      obtain ⟨u, hu⟩ := hsh x (List.mem_reverse.1 hx)
      rw [hu, hcd]
      simpa using dropSep_fmtNumber (ne_plus_of_isDigitChar hdigc) plus (cd' ++ u)
    rw [List.map_congr_left hid, List.map_id]
  have h1 : (rs.map dropSep).Nodup := by
    rw [hmap]
    exact List.nodup_reverse.2 hnd
  exact ⟨h1, h1.of_map dropSep⟩

/-- Witness for C2: a complete concrete unique run; both the results and
their unformatted digit strings are pairwise distinct. -/
theorem generate_unique_results_nodup_witness :
    (([['1','0'], ['1','1']] : List (List Char)).map dropSep).Nodup ∧
      ([['1','0'], ['1','1']] : List (List Char)).Nodup :=
  generate_unique_results_nodup rngMod 2 2 ("1".toList) [] 2 false _ (by rfl)

/-- C3: every returned string, once the leading separator (if present) is
stripped, consists only of digit characters, has length exactly
`total_length`, and starts with the validated country digits followed by the
local digits. -/
theorem generate_results_format (rng : Nat → Fin 10) (fuel : Nat) (t : Int)
    (cc lc : List Char) (lim : Int) (plus uniq : Bool) (rs : List (List Char))
    (h : generate_phone_numbers rng fuel t cc lc lim plus uniq = .ok (some rs)) :
    ∀ x ∈ rs, (∀ c ∈ dropSep x, isDigitChar c = true) ∧
      ((dropSep x).length : Int) = t ∧
      ∃ u, dropSep x = (country_digits_of cc ++ local_digits_of lc) ++ u := by
  obtain ⟨-, hcc, hlc, hrem, -, hres⟩ := generate_ok_inv h
  have helems := genLoop_elems rng _ _ _ lim plus uniq fuel 0 [] [] rs
    (by intro x hx; exact absurd hx (List.not_mem_nil x)) hres.symm
  intro x hx
  obtain ⟨body, hblen, hbdig, hxeq⟩ := helems x hx
  obtain ⟨c, cd', hcd, hdigc, hcall⟩ := pyIsdigit_cons hcc
  have hdrop : dropSep x = country_digits_of cc ++ (local_digits_of lc ++ body) := by
    rw [hxeq, hcd]
    simpa using dropSep_fmtNumber (ne_plus_of_isDigitChar hdigc) plus
      (cd' ++ (local_digits_of lc ++ body))
  refine ⟨?_, ?_, ?_⟩
  · intro d hd
    rw [hdrop] at hd
    rcases List.mem_append.1 hd with hd | hd
    · exact hcall d hd
    rcases List.mem_append.1 hd with hd | hd
    · rcases hlc with hlc | hlc
      · rw [hlc] at hd
        exact absurd hd (List.not_mem_nil d)
      · obtain ⟨-, -, -, -, hlall⟩ := pyIsdigit_cons hlc
        exact hlall d hd
    · exact hbdig d hd
  · rw [hdrop]
    simp only [List.length_append]
    rw [hblen]
    unfold remaining_of at hrem ⊢
    push_cast
    omega
  · exact ⟨body, by rw [hdrop, List.append_assoc]⟩

/-- Witness for C3: in a complete concrete run every result, stripped of the
separator, is a digit string of the configured total length extending the
country and local digits. -/
theorem generate_results_format_witness :
    (∀ c ∈ dropSep ['+','1','0','0'], isDigitChar c = true) ∧
      ((dropSep ['+','1','0','0']).length : Int) = 3 ∧
      ∃ u, dropSep ['+','1','0','0']
        = (country_digits_of ("1".toList) ++ local_digits_of []) ++ u :=
  generate_results_format rngZero 3 3 ("1".toList) [] 3 true false
    [['+','1','0','0'], ['+','1','0','0'], ['+','1','0','0']] (by rfl)
    ['+','1','0','0'] (by decide)

/-- C8: a returned string starts with the separator character `'+'` exactly
when `include_plus` was set: with `include_plus = true` every result starts
with `'+'`, with `include_plus = false` none does. -/
theorem generate_separator_control (rng : Nat → Fin 10) (fuel : Nat) (t : Int)
    (cc lc : List Char) (lim : Int) (plus uniq : Bool) (rs : List (List Char))
    (h : generate_phone_numbers rng fuel t cc lc lim plus uniq = .ok (some rs)) :
    ∀ x ∈ rs, (plus = true → x.head? = some '+') ∧
      (plus = false → x.head? ≠ some '+') := by
  obtain ⟨-, hcc, -, -, -, hres⟩ := generate_ok_inv h
  have helems := genLoop_elems rng _ _ _ lim plus uniq fuel 0 [] [] rs
    (by intro x hx; exact absurd hx (List.not_mem_nil x)) hres.symm
  intro x hx
  obtain ⟨body, -, -, hxeq⟩ := helems x hx
  obtain ⟨c, cd', hcd, hdigc, -⟩ := pyIsdigit_cons hcc
  constructor
  · intro hp
    rw [hxeq, hp]
    simp [fmtNumber]
  · intro hp
    rw [hxeq, hp, hcd]
    simp only [fmtNumber, if_neg Bool.false_ne_true, List.cons_append, List.head?_cons]
    intro hh
    exact ne_plus_of_isDigitChar hdigc (Option.some.inj hh)

/-- Witness for C8: in a concrete run with the separator enabled every
result starts with `'+'`; the second conjunct is vacuously about the same
run. -/
theorem generate_separator_control_witness :
    (true = true → (['+','1','0','0'] : List Char).head? = some '+') ∧
      (true = false → (['+','1','0','0'] : List Char).head? ≠ some '+') :=
  generate_separator_control rngZero 3 3 ("1".toList) [] 3 true false
    [['+','1','0','0'], ['+','1','0','0'], ['+','1','0','0']] (by rfl)
    ['+','1','0','0'] (by decide)

/-- C4: with `unique = true` and an otherwise-valid configuration, the run
fails with the capacity error exactly when `limit` exceeds
`max_possible = 10 ^ remaining_length`: above the bound it returns precisely
that error (reporting both values), at or below the bound the capacity check
passes and the function returns normally. -/
theorem generate_capacity_boundary (rng : Nat → Fin 10) (fuel : Nat) (t : Int)
    (cc lc : List Char) (lim : Int) (plus : Bool)
    (ht : 0 < t) (hcc : pyIsdigit (country_digits_of cc) = true)
    (hlc : local_digits_of lc = [] ∨ pyIsdigit (local_digits_of lc) = true)
    (hr : 0 < remaining_of t cc lc) :
    (max_possible_of t cc lc < lim →
      generate_phone_numbers rng fuel t cc lc lim plus true
        = .error (.capacityExceeded lim (max_possible_of t cc lc))) ∧
    (lim ≤ max_possible_of t cc lc →
      ∃ o, generate_phone_numbers rng fuel t cc lc lim plus true = .ok o) := by
  unfold generate_phone_numbers
  rw [if_neg (by omega), if_neg (by simp [hcc])]
  rw [if_neg (by rintro ⟨hne, hf⟩; rcases hlc with h | h; exacts [hne h, by simp [h] at hf])]
  rw [if_neg (by omega)]
  constructor
  · intro hlt
    rw [if_pos ⟨rfl, hlt⟩]
  · intro hle
    rw [if_neg (fun hc => absurd hc.2 (by omega))]
    exact ⟨_, rfl⟩

/-- Witness for C4: with remaining length 1 (so `max_possible = 10`) a
request for `10 + 1 = 11` unique numbers fails with the capacity error. -/
theorem generate_capacity_boundary_witness :
    max_possible_of 2 ("1".toList) [] = 10 ∧
      generate_phone_numbers rngZero 0 2 ("1".toList) [] 11 true true
        = .error (.capacityExceeded 11 (max_possible_of 2 ("1".toList) [])) :=
  ⟨by decide,
    (generate_capacity_boundary rngZero 0 2 ("1".toList) [] 11 true (by decide)
      (by decide) (by decide) (by decide)).1 (by decide)⟩

/-- C6: whenever `total_length ≤ 0`, or the computed remaining length
`total_length - len(country_digits) - len(local_digits)` is non-positive,
the run fails with an `InvalidConfiguration`-kind error before producing any
output. -/
theorem generate_invalid_length_rejected (rng : Nat → Fin 10) (fuel : Nat) (t : Int)
    (cc lc : List Char) (lim : Int) (plus uniq : Bool)
    (h : t ≤ 0 ∨ remaining_of t cc lc ≤ 0) :
    ∃ e, generate_phone_numbers rng fuel t cc lc lim plus uniq = .error e ∧
      e.isInvalidConfiguration = true := by
  unfold generate_phone_numbers
  by_cases h1 : t ≤ 0
  · rw [if_pos h1]
    exact ⟨_, rfl, rfl⟩
  rw [if_neg h1]
  by_cases h2 : pyIsdigit (country_digits_of cc) = false
  · rw [if_pos h2]
    exact ⟨_, rfl, rfl⟩
  rw [if_neg h2]
  by_cases h3 : local_digits_of lc ≠ [] ∧ pyIsdigit (local_digits_of lc) = false
  · rw [if_pos h3]
    exact ⟨_, rfl, rfl⟩
  rw [if_neg h3]
  rw [if_pos (by omega)]
  exact ⟨_, rfl, rfl⟩

/-- Witness for C6: `total_length = 3`, country code `1`, local code `415`
has remaining length `-1` and is rejected as an invalid configuration. -/
theorem generate_invalid_length_rejected_witness :
    remaining_of 3 ("1".toList) ("415".toList) = -1 ∧
      ∃ e, generate_phone_numbers rngZero 0 3 ("1".toList) ("415".toList) 10 true true
          = .error e ∧ e.isInvalidConfiguration = true :=
  ⟨by decide,
    generate_invalid_length_rejected rngZero 0 3 ("1".toList) ("415".toList) 10 true true
      (by decide)⟩

/-- C10: a country code from which no digits remain after stripping
whitespace and the leading `'+'` characters (for example an empty, blank, or
all-`'+'` code) is rejected as an invalid country code, because the empty
stripped string fails Python's `isdigit` test. -/
theorem generate_blank_country_rejected (rng : Nat → Fin 10) (fuel : Nat) (t : Int)
    (cc lc : List Char) (lim : Int) (plus uniq : Bool)
    (ht : 0 < t) (hcc : country_digits_of cc = []) :
    generate_phone_numbers rng fuel t cc lc lim plus uniq = .error .invalidCountryCode := by
  unfold generate_phone_numbers
  rw [if_neg (by omega), if_pos (by simp [hcc, pyIsdigit])]

/-- Witness for C10: the country code consisting of a space and two `'+'`
characters strips to the empty string and is rejected. -/
theorem generate_blank_country_rejected_witness :
    country_digits_of (" ++".toList) = [] ∧
      generate_phone_numbers rngZero 0 7 (" ++".toList) [] 10 true true
        = .error .invalidCountryCode :=
  ⟨by decide,
    generate_blank_country_rejected rngZero 0 7 (" ++".toList) [] 10 true true
      (by decide) (by decide)⟩

/-- Counterexample to C5: the source strips ALL leading `'+'` characters
(`lstrip('+')`), not exactly one, so the country code `++1` passes
validation and a full run succeeds instead of failing with an
`InvalidConfiguration` error. -/
theorem country_double_plus_accepted_cex :
    generate_phone_numbers rngZero 1 5 ("++1".toList) [] 1 false false
      = .ok (some [['1','0','0','0','0']]) := by rfl

lemma pySpace_eq_false_of_digit {c : Char} (h : isDigitChar c = true) :
    pySpace c = false := by
  simp only [isDigitChar, Bool.and_eq_true, decide_eq_true_eq] at h
  simp only [pySpace, Bool.or_eq_false_iff, decide_eq_false_iff_not]
  omega

lemma pyStrip_of_no_space {l : List Char} (h : ∀ c ∈ l, pySpace c = false) :
    pyStrip l = l := by
  unfold pyStrip
  have h1 : l.dropWhile pySpace = l := by
    cases l with
    | nil => rfl
    | cons c cs =>
      rw [List.dropWhile_cons, if_neg (by rw [h c (by simp)]; simp)]
  rw [h1]
  have h2 : l.reverse.dropWhile pySpace = l.reverse := by
    cases hrev : l.reverse with
    | nil => rfl
    | cons c cs =>
      rw [List.dropWhile_cons,
        if_neg (by rw [h c (by rw [← List.mem_reverse, hrev]; simp)]; simp)]
  rw [h2, List.reverse_reverse]

/-- C5 amended: config validation strips EVERY leading separator character
from the country code (after stripping whitespace), then rejects remaining
non-digit characters; consequently a country code made of two or more
leading `'+'` characters followed by digit characters is accepted: it
validates to exactly those digits and never produces the invalid-country
error. -/
theorem country_lstrip_all_plus (rng : Nat → Fin 10) (fuel : Nat) (t : Int)
    (lc : List Char) (lim : Int) (plus uniq : Bool) (k : Nat) (ds : List Char)
    (_hk : 2 ≤ k) (hne : ds ≠ []) (hall : ∀ c ∈ ds, isDigitChar c = true) :
    country_digits_of (List.replicate k '+' ++ ds) = ds ∧
      generate_phone_numbers rng fuel t (List.replicate k '+' ++ ds) lc lim plus uniq
        ≠ .error .invalidCountryCode := by
  have hstrip : pyStrip (List.replicate k '+' ++ ds) = List.replicate k '+' ++ ds := by
    refine pyStrip_of_no_space ?_
    intro c hc
    rcases List.mem_append.1 hc with hc | hc
    · rw [List.eq_of_mem_replicate hc]
      decide
    · exact pySpace_eq_false_of_digit (hall c hc)
  obtain ⟨d, ds', rfl⟩ : ∃ d ds', ds = d :: ds' := by
    cases ds with
    | nil => exact absurd rfl hne
    | cons d ds' => exact ⟨d, ds', rfl⟩
  have hcd : country_digits_of (List.replicate k '+' ++ d :: ds') = d :: ds' := by
    unfold country_digits_of
    rw [hstrip]
    have hplus : ∀ m : Nat, pyLstripPlus (List.replicate m '+' ++ d :: ds') = d :: ds' := by
      intro m
      induction m with
      | zero =>
        simp only [List.replicate_zero, List.nil_append, pyLstripPlus, List.dropWhile_cons]
        rw [if_neg (by simp [ne_plus_of_isDigitChar (hall d (by simp))])]
      | succ m ih =>
        simp only [List.replicate_succ, List.cons_append, pyLstripPlus,
          List.dropWhile_cons] at ih ⊢
        rw [if_pos (by simp)]
        exact ih
    exact hplus k
  have hdig : pyIsdigit (country_digits_of (List.replicate k '+' ++ d :: ds')) = true := by
    rw [hcd]
    simp only [pyIsdigit, List.isEmpty_cons, Bool.not_false, Bool.true_and, List.all_eq_true]
    exact hall
  refine ⟨hcd, ?_⟩
  unfold generate_phone_numbers
  by_cases h1 : t ≤ 0
  · rw [if_pos h1]
    simp
  rw [if_neg h1, if_neg (by simp [hdig])]
  by_cases h3 : local_digits_of lc ≠ [] ∧ pyIsdigit (local_digits_of lc) = false
  · rw [if_pos h3]
    simp
  rw [if_neg h3]
  by_cases h4 : remaining_of t (List.replicate k '+' ++ d :: ds') lc ≤ 0
  · rw [if_pos h4]
    simp
  rw [if_neg h4]
  by_cases h5 : uniq = true ∧ max_possible_of t (List.replicate k '+' ++ d :: ds') lc < lim
  · rw [if_pos h5]
    simp
  rw [if_neg h5]
  simp

/-- Witness for the amended C5: the country code `++1` validates to the
digit string `1` and a run with it does not raise the invalid-country
error. -/
theorem country_lstrip_all_plus_witness :
    country_digits_of ("++1".toList) = ("1".toList) ∧
      generate_phone_numbers rngZero 1 5 ("++1".toList) [] 1 false false
        ≠ .error .invalidCountryCode :=
  country_lstrip_all_plus rngZero 1 5 [] 1 false false 2 ("1".toList)
    (by decide) (by decide) (by decide)

lemma bodyAt_rngZero (pos : Nat) : bodyAt rngZero pos 1 = ['0'] := by
  simp only [bodyAt, List.range_succ, List.range_zero, List.nil_append, List.map_cons,
    List.map_nil]
  rfl

lemma genLoop_rngZero_stuck :
    ∀ (fuel pos : Nat),
      genLoop rngZero ("1".toList) [] 1 2 false true fuel pos [['1','0']] [['1','0']]
        = none := by
  intro fuel
  induction fuel with
  | zero =>
    intro pos
    simp [genLoop]
  | succ fuel ih =>
    intro pos
    simp only [genLoop]
    rw [if_pos (by norm_num), if_pos trivial,
      if_pos (by rw [bodyAt_rngZero]; simp)]
    exact ih (pos + 1)

lemma generate_rngZero_runs_forever (fuel : Nat) :
    generate_phone_numbers rngZero fuel 2 ("1".toList) [] 2 false true = .ok none := by
  have hgen : generate_phone_numbers rngZero fuel 2 ("1".toList) [] 2 false true
      = .ok (genLoop rngZero ("1".toList) [] 1 2 false true fuel 0 [] []) := by rfl
  rw [hgen]
  cases fuel with
  | zero => rfl
  | succ fuel =>
    have hstep : genLoop rngZero ("1".toList) [] 1 2 false true (fuel + 1) 0 [] []
        = genLoop rngZero ("1".toList) [] 1 2 false true fuel 1 [['1','0']] [['1','0']] := by
      simp only [genLoop]
      rw [if_pos (by norm_num), if_pos trivial,
        if_neg (by rw [bodyAt_rngZero]; simp)]
      rfl
    rw [hstep, genLoop_rngZero_stuck fuel 1]

/-- Counterexample to C7: the retry loop does NOT terminate for every random
source.  The configuration (`total_length = 2`, country code `1`, no local
code, `count = 2`, `unique = true`) satisfies the pre-validated feasibility
precondition (`2 ≤ 10 ^ 1`), yet under the constant random source that draws
`0` forever, every second iteration collides with the first number and the
loop never finishes: for every amount of fuel the run is still going. -/
theorem retry_loop_nontermination_cex :
    ¬ loopTerminates rngZero 2 ("1".toList) [] 2 false := by
  rintro ⟨fuel, rs, h⟩
  rw [generate_rngZero_runs_forever fuel] at h
  injection h with h
  exact Option.noConfusion h

lemma genLoop_none_seen_bound (rng : Nat → Fin 10) (cd ld : List Char) (r : Nat)
    (lim : Int) (plus : Bool) :
    ∀ (fuel k : Nat),
      genLoop rng cd ld r lim plus true fuel (k * r) (seenUpTo rng cd ld r k)
        ((seenUpTo rng cd ld r k).reverse.map (fmtNumber plus)) = none →
      ((seenUpTo rng cd ld r (k + fuel)).length : Int) < lim := by
  intro fuel
  induction fuel with
  | zero =>
    intro k h
    simp only [genLoop] at h
    by_cases hlt :
        ((((seenUpTo rng cd ld r k).reverse.map (fmtNumber plus)).length : Int)) < lim
    · simpa using hlt
    · rw [if_neg hlt] at h
      exact Option.noConfusion h
  | succ fuel ih =>
    intro k h
    simp only [genLoop] at h
    by_cases hlt :
        ((((seenUpTo rng cd ld r k).reverse.map (fmtNumber plus)).length : Int)) < lim
    · rw [if_pos hlt, if_pos trivial] at h
      have hiter : k + (fuel + 1) = (k + 1) + fuel := by omega
      rw [hiter]
      by_cases hmem : cd ++ (ld ++ bodyAt rng (k * r) r) ∈ seenUpTo rng cd ld r k
      · rw [if_pos hmem] at h
        have hs : seenUpTo rng cd ld r (k + 1) = seenUpTo rng cd ld r k := by
          simp [seenUpTo, insertNew, fullAt, hmem]
        refine ih (k + 1) ?_
        rw [hs, Nat.succ_mul]
        exact h
      · rw [if_neg hmem] at h
        have hs : seenUpTo rng cd ld r (k + 1)
            = (cd ++ (ld ++ bodyAt rng (k * r) r)) :: seenUpTo rng cd ld r k := by
          simp [seenUpTo, insertNew, fullAt, hmem]
        refine ih (k + 1) ?_
        rw [hs, Nat.succ_mul]
        simpa using h
    · rw [if_neg hlt] at h
      exact Option.noConfusion h

/-- C7 amended: the loop carries no artificial retry cap and, under the
pre-validated feasibility precondition, terminates for every random source
that actually supplies enough distinct numbers: if among the first `fuel`
loop iterations the drawn full digit strings take at least `limit` distinct
values, the run completes within that fuel with exactly `limit` results.
(It does not terminate for EVERY random source: see the counterexample with
the constant source.) -/
theorem retry_loop_terminates_given_distinct (rng : Nat → Fin 10) (fuel : Nat) (t : Int)
    (cc lc : List Char) (lim : Int) (plus : Bool)
    (h0 : 0 ≤ lim) (ht : 0 < t)
    (hcc : pyIsdigit (country_digits_of cc) = true)
    (hlc : local_digits_of lc = [] ∨ pyIsdigit (local_digits_of lc) = true)
    (hr : 0 < remaining_of t cc lc)
    (hcap : lim ≤ max_possible_of t cc lc)
    (hfresh : lim ≤ ((seenUpTo rng (country_digits_of cc) (local_digits_of lc)
        (remaining_of t cc lc).toNat fuel).length : Int)) :
    ∃ rs, generate_phone_numbers rng fuel t cc lc lim plus true = .ok (some rs) ∧
      (rs.length : Int) = lim := by
  have hgen : generate_phone_numbers rng fuel t cc lc lim plus true
      = .ok (genLoop rng (country_digits_of cc) (local_digits_of lc)
          (remaining_of t cc lc).toNat lim plus true fuel 0 [] []) := by
    unfold generate_phone_numbers
    rw [if_neg (by omega), if_neg (by simp [hcc]),
      if_neg (by rintro ⟨hne, hf⟩; rcases hlc with h | h; exacts [hne h, by simp [h] at hf]),
      if_neg (by omega), if_neg (fun hc => absurd hc.2 (by omega))]
  cases hloop : genLoop rng (country_digits_of cc) (local_digits_of lc)
      (remaining_of t cc lc).toNat lim plus true fuel 0 [] [] with
  | none =>
    exfalso
    have hb := genLoop_none_seen_bound rng (country_digits_of cc) (local_digits_of lc)
      (remaining_of t cc lc).toNat lim plus fuel 0 (by simpa [seenUpTo] using hloop)
    simp only [Nat.zero_add] at hb
    omega
  | some rs =>
    refine ⟨rs, by rw [hgen, hloop], ?_⟩
    exact genLoop_length rng (country_digits_of cc) (local_digits_of lc)
      (remaining_of t cc lc).toNat lim plus true fuel 0 [] [] rs (by simpa using h0) hloop

/-- Witness for the amended C7: under the cycling source the first two
iterations draw the distinct numbers `10` and `11`, so the feasible unique
batch of two completes within two iterations. -/
theorem retry_loop_terminates_given_distinct_witness :
    ∃ rs, generate_phone_numbers rngMod 2 2 ("1".toList) [] 2 false true
        = .ok (some rs) ∧ (rs.length : Int) = 2 :=
  retry_loop_terminates_given_distinct rngMod 2 2 ("1".toList) [] 2 false (by decide)
    (by decide) (by decide) (by decide) (by decide) (by decide) (by decide)

lemma ne_cr_of_not_special {c : Char} (h : csvSpecial c = false) : c ≠ '\r' := by
  rintro rfl
  exact absurd h (by decide)

lemma ne_quote_of_not_special {c : Char} (h : csvSpecial c = false) : c ≠ '"' := by
  rintro rfl
  exact absurd h (by decide)

lemma encodeField_of_plain {f : List Char} (h : ∀ c ∈ f, csvSpecial c = false) :
    encodeField f = f := by
  unfold encodeField
  rw [if_neg]
  simp only [List.any_eq_true, not_exists, not_and]
  intro c hc
  simp [h c hc]

lemma decodeField_of_plain {f : List Char} (h : ∀ c ∈ f, csvSpecial c = false) :
    decodeField f = f := by
  unfold decodeField
  cases f with
  | nil => rw [if_neg (by simp)]
  | cons c cs =>
    rw [if_neg]
    simp only [List.head?_cons, Option.some.injEq]
    exact ne_quote_of_not_special (h c (by simp))

lemma map_decodeField_id (nums : List (List Char))
    (h : ∀ p ∈ nums, ∀ c ∈ p, csvSpecial c = false) :
    nums.map decodeField = nums := by
  induction nums with
  | nil => rfl
  | cons p ps ih =>
    rw [List.map_cons, decodeField_of_plain (h p (by simp)),
      ih (fun q hq => h q (by simp [hq]))]

lemma splitCRLF_cons_crlf (rest : List Char) :
    splitCRLF ('\r' :: '\n' :: rest) = [] :: splitCRLF rest := by
  simp [splitCRLF]

lemma splitCRLF_cons_ne (c c2 : Char) (rest : List Char) (hc : c ≠ '\r') :
    splitCRLF (c :: c2 :: rest)
      = match splitCRLF (c2 :: rest) with
        | [] => [[c]]
        | l :: ls => (c :: l) :: ls := by
  simp only [splitCRLF]
  rw [if_neg (fun hand => hc hand.1)]

lemma splitCRLF_append (a rest : List Char) (ha : ∀ c ∈ a, c ≠ '\r') :
    splitCRLF (a ++ '\r' :: '\n' :: rest) = a :: splitCRLF rest := by
  induction a with
  | nil => simpa using splitCRLF_cons_crlf rest
  | cons c a' ih =>
    have hc : c ≠ '\r' := ha c (by simp)
    have ih' := ih (fun d hd => ha d (by simp [hd]))
    cases a' with
    | nil =>
      rw [List.cons_append, List.nil_append,
        splitCRLF_cons_ne c '\r' ('\n' :: rest) hc, splitCRLF_cons_crlf rest]
    | cons d a'' =>
      rw [List.cons_append] at ih'
      rw [List.cons_append, List.cons_append,
        splitCRLF_cons_ne c d (a'' ++ '\r' :: '\n' :: rest) hc, ih']

lemma splitCRLF_csvLines (nums : List (List Char))
    (h : ∀ p ∈ nums, ∀ c ∈ p, csvSpecial c = false) :
    splitCRLF (csvLines nums) = nums ++ [[]] := by
  induction nums with
  | nil => rfl
  | cons p ps ih =>
    have hp := h p (by simp)
    have hps := ih (fun q hq => h q (by simp [hq]))
    simp only [csvLines, encodeField_of_plain hp, CRLF, List.cons_append, List.nil_append]
    rw [splitCRLF_append p _ (fun c hc => ne_cr_of_not_special (hp c hc)), hps]

/-- C9: the Writer persists a header record `Phone Number` followed by one
record per number; re-reading the written file (records split at the CRLF
terminator, fields decoded, header dropped) reproduces the original sequence
exactly and in order.  The hypothesis — no delimiter, quote or line-break
characters in the numbers — holds for every phone number by construction
(digits and an optional leading `+`). -/
theorem csv_round_trip (nums : List (List Char))
    (h : ∀ p ∈ nums, ∀ c ∈ p, csvSpecial c = false) :
    read_csv (save_to_csv nums) = nums := by
  have hheader : ∀ c ∈ ("Phone Number".toList), csvSpecial c = false := by decide
  have hcontent : splitCRLF (save_to_csv nums)
      = ("Phone Number".toList) :: (nums ++ [[]]) := by
    unfold save_to_csv
    rw [encodeField_of_plain hheader]
    have hcr : CRLF ++ csvLines nums = '\r' :: '\n' :: csvLines nums := rfl
    rw [hcr, splitCRLF_append _ _ (fun c hc => ne_cr_of_not_special (hheader c hc)),
      splitCRLF_csvLines nums h]
  have hlast : (("Phone Number".toList) :: (nums ++ [[]])).getLast? = some [] := by
    rw [← List.cons_append]
    exact List.getLast?_concat _
  have hdl : (("Phone Number".toList) :: (nums ++ [[]])).dropLast
      = ("Phone Number".toList) :: nums := by
    rw [← List.cons_append]
    exact List.dropLast_concat
  unfold read_csv csvRecords
  rw [hcontent, if_pos hlast, hdl, List.map_cons]
  simp only [List.drop_succ_cons, List.drop_zero]
  exact map_decodeField_id nums h

/-- Witness for C9: a concrete two-number batch survives the write/read
round trip unchanged. -/
theorem csv_round_trip_witness :
    read_csv (save_to_csv [['+','1','2'], ['3']]) = [['+','1','2'], ['3']] :=
  csv_round_trip [['+','1','2'], ['3']] (by decide)
